import Mathlib

/-
Verification of the gostore repository: a bounded LRU cache with lazy
per-entry TTL in front of a persistent key-value engine, with
retrying writes, a load path, updates and a memoize primitive.

The embedding models the current sources: the LRU with per-entry
expiry (lru.go) and the store facade whose records are serialized by
valueT.MarshalBinary / UnmarshalBinary (store.go).  Machine integers
are modelled as Nat/Int with explicit wrap-around; Go time.Time values
are modelled at whole-second granularity as `Option Int` (none is the
zero time, some u a time with unix-seconds u); byte slices are
`List Nat`.  The persistent engine (bbolt) is external and is modelled
as a map from keys of the default bucket to stored byte strings, with
an oracle `attemptOk` giving the success of each write attempt and a
`readErr` oracle for read-transaction failures.  A Go runtime panic
(make with negative length) is modelled as a distinguished outcome.
-/

namespace gostore

/-! ## Little-endian integer serialization (binary.Write / binary.Read, LittleEndian) -/

/-- Bytes of a Nat, 4-byte little endian, mirroring binary.Write of an int32
whose two's-complement bit pattern is the Nat `u`. -/
def natToLE4 (u : Nat) : List Nat :=
  [u % 256, u / 256 % 256, u / 65536 % 256, u / 16777216 % 256]

/-- Bytes of a Nat, 8-byte little endian, mirroring binary.Write of an int64
whose two's-complement bit pattern is the Nat `u`. -/
def natToLE8 (u : Nat) : List Nat :=
  [u % 256, u / 256 % 256, u / 65536 % 256, u / 16777216 % 256,
   u / 4294967296 % 256, u / 1099511627776 % 256,
   u / 281474976710656 % 256, u / 72057594037927936 % 256]

/-- Little-endian byte list to Nat. -/
def natFromLE : List Nat → Nat
  | [] => 0
  | b :: bs => b + 256 * natFromLE bs

/-- Two's-complement int32 read from 4 little-endian bytes (binary.Read into int32). -/
def int32OfBytes (bs : List Nat) : Int :=
  if natFromLE bs < 2147483648 then (natFromLE bs : Int)
  else (natFromLE bs : Int) - 4294967296

/-- Two's-complement int64 read from 8 little-endian bytes (binary.Read into int64). -/
def int64OfBytes (bs : List Nat) : Int :=
  if natFromLE bs < 9223372036854775808 then (natFromLE bs : Int)
  else (natFromLE bs : Int) - 18446744073709551616

/-- Bit pattern (as a Nat) of an Int reduced to 32 bits, i.e. Go int32 conversion. -/
def int32Wrap (x : Int) : Nat := (x % 4294967296).toNat

/-- Bit pattern (as a Nat) of an Int reduced to 64 bits. -/
def int64Wrap (x : Int) : Nat := (x % 18446744073709551616).toNat

theorem int32_rt (x : Int) (h1 : -2147483648 ≤ x) (h2 : x < 2147483648) :
    int32OfBytes (natToLE4 (int32Wrap x)) = x := by
  simp only [natToLE4, int32Wrap, int32OfBytes, natFromLE]
  omega

theorem int64_rt (x : Int) (h1 : -9223372036854775808 ≤ x)
    (h2 : x < 9223372036854775808) :
    int64OfBytes (natToLE8 (int64Wrap x)) = x := by
  simp only [natToLE8, int64Wrap, int64OfBytes, natFromLE]
  omega

theorem natToLE4_length (u : Nat) : (natToLE4 u).length = 4 := rfl

theorem natToLE8_length (u : Nat) : (natToLE8 u).length = 8 := rfl

/-! ## Go time values at second granularity -/

/-- A Go time.Time at whole-second granularity: none is the zero time. -/
abbrev GoTime := Option Int

/-- Unix seconds of Go's zero time.Time, i.e. (time.Time).Unix() of the zero value. -/
def zeroTimeUnix : Int := -62135596800

/-- (t time.Time).Unix() for a modelled time. -/
def goTimeUnix : GoTime → Int
  | none => zeroTimeUnix
  | some u => u

/-- time.Unix(u, 0): yields the zero time exactly when u is the zero time's
unix-second count (IsZero is then true). -/
def goTimeOfUnix (u : Int) : GoTime :=
  if u = zeroTimeUnix then none else some u

deriving instance DecidableEq for Except

/-! ## valueT records and their wire format (store.go) -/

/-- Error outcomes of valueT.UnmarshalBinary.  ioError covers the io.EOF /
ErrUnexpectedEOF returns of binary.Read and bytes.Reader.Read; negLenPanic
models the Go runtime panic of make with a negative length. -/
inductive UErr
  | ioError
  | negLenPanic
deriving DecidableEq

/-- A stored record: value bytes plus expiry time (type valueT in store.go). -/
structure ValueT where
  Value : List Nat
  Expire : GoTime
deriving DecidableEq

/-- valueT.isExpired: not-zero expiry and time.Now().After(Expire). -/
def ValueT.isExpired (v : ValueT) (now : Int) : Bool :=
  match v.Expire with
  | none => false
  | some t => decide (t < now)

/-- newValueT: ttl 0 leaves the zero expiry, otherwise now plus ttl seconds. -/
def newValueT (value : List Nat) (ttl : Int) (now : Int) : ValueT :=
  ⟨value, if ttl = 0 then none else some (now + ttl)⟩

/-- valueT.MarshalBinary: little-endian int32 length of the value bytes,
then the value bytes, then the little-endian int64 unix seconds of Expire. -/
def marshalValueT (v : ValueT) : List Nat :=
  natToLE4 (int32Wrap v.Value.length) ++ v.Value ++
    natToLE8 (int64Wrap (goTimeUnix v.Expire))

/-- valueT.UnmarshalBinary, including the state of the record when an error
occurs (the Go method mutates its receiver before failing): reads an int32
length, allocates with make (panicking when the length is negative),
bytes.Reader.Read fills up to that many bytes (io.EOF only when the reader is
already exhausted), then reads an int64 and converts with time.Unix. -/
def unmarshalSt (data : List Nat) : ValueT × Option UErr :=
  if data.length < 4 then (⟨[], none⟩, some .ioError)
  else
    let len := int32OfBytes (data.take 4)
    if len < 0 then (⟨[], none⟩, some .negLenPanic)
    else
      let n := len.toNat
      let rest := data.drop 4
      if rest.length = 0 then (⟨List.replicate n 0, none⟩, some .ioError)
      else
        let value := rest.take n ++ List.replicate (n - rest.length) 0
        let rest2 := rest.drop n
        if rest2.length < 8 then (⟨value, none⟩, some .ioError)
        else (⟨value, goTimeOfUnix (int64OfBytes (rest2.take 8))⟩, none)

/-- valueT.UnmarshalBinary as a fallible function: the filled record, or the
first error (a negLenPanic outcome stands for the runtime panic). -/
def unmarshalValueT (data : List Nat) : Except UErr ValueT :=
  match unmarshalSt data with
  | (v, none) => .ok v
  | (_, some e) => .error e

/-! ## The LRU cache with per-entry expiry (lru.go) -/

/-- An evict-list entry: key, optional absolute expiry, cached bytes. -/
structure Entry where
  key : String
  expire : Option Int
  value : List Nat
deriving DecidableEq

/-- The lru struct: the evict list front-first (front of the recency list is
the head); the items map is the key index of that list, so it is represented
by the list itself. -/
structure LRU where
  list : List Entry
  size : Nat
deriving DecidableEq

/-- newLRU. -/
def newLRU (size : Nat) : LRU := ⟨[], size⟩

/-- lru.Add: an existing entry moves to the front and has only its value
replaced (its stored expiry is kept and the expire argument is ignored);
a new entry is pushed at the front and, when the list then exceeds size,
the element at the back is removed. -/
def LRU.Add (c : LRU) (key : String) (expire : Option Int) (value : List Nat) : LRU :=
  match c.list.find? (fun e => e.key == key) with
  | some e =>
      { c with list := { e with value := value } :: c.list.eraseP (fun x => x.key == key) }
  | none =>
      let l : List Entry := ⟨key, expire, value⟩ :: c.list
      if c.size < l.length then { c with list := l.dropLast } else { c with list := l }

/-- lru.Get: a present entry is moved to the front; it is returned when its
expiry is zero or strictly after now, otherwise it is removed and not-found
is returned. -/
def LRU.Get (c : LRU) (now : Int) (key : String) : LRU × Option (List Nat) :=
  match c.list.find? (fun e => e.key == key) with
  | none => (c, none)
  | some e =>
      match e.expire with
      | none => ({ c with list := e :: c.list.eraseP (fun x => x.key == key) }, some e.value)
      | some t =>
          if now < t then
            ({ c with list := e :: c.list.eraseP (fun x => x.key == key) }, some e.value)
          else ({ c with list := c.list.eraseP (fun x => x.key == key) }, none)

/-- Keys of the resident entries, most recent first. -/
def lruKeys (c : LRU) : List String := c.list.map Entry.key

/-- A sequence of lru.Add calls, applied left to right. -/
def AddList (c : LRU) (ps : List Entry) : LRU :=
  ps.foldl (fun a p => a.Add p.key p.expire p.value) c

/-! ## The Store facade (store.go) over the default bucket -/

/-- Errors a Load can end with.  notFound and expired are ErrKeyNotFound and
ErrKeyExpired; engineErr a failing read transaction of the engine; panicked
the propagation of a runtime panic raised while decoding a stored record. -/
inductive LErr
  | notFound
  | expired
  | engineErr
  | panicked
deriving DecidableEq

/-- Errors of UpdateWithTTL. -/
inductive UpdErr
  | marshalFailed
  | writeFailed
deriving DecidableEq

/-- Errors of MemoizeWithTTL: a propagated Load error, a failed compute
function (covering also a non-marshaler result and a failing MarshalBinary),
or an exhausted write. -/
inductive MErr
  | load (e : LErr)
  | computeFailed
  | writeFailed
deriving DecidableEq

/-- Store state: the default bucket of the engine as a map from key to stored
bytes, plus the optional LRU cache (nil when caching is disabled). -/
structure StoreSt where
  db : String → Option (List Nat)
  cache : Option LRU

/-- Keys resident in the cache (empty when caching is disabled). -/
def cacheKeysOf (st : StoreSt) : List String :=
  match st.cache with
  | none => []
  | some c => lruKeys c

/-- Store.get on the default bucket.  An absent bucket or key is
ErrKeyNotFound.  The closure assigns the UnmarshalBinary error to the outer
err variable and returns nil, after which err is overwritten by the nil
result of db.View: a decode error is therefore swallowed and the partially
filled record is returned, while a decode panic propagates. -/
def storeGet (readErr : Option Unit) (db : String → Option (List Nat)) (key : String) :
    Except LErr ValueT :=
  match readErr with
  | some _ => .error .engineErr
  | none =>
    match db key with
    | none => .error .notFound
    | some bs =>
        match unmarshalSt bs with
        | (_, some .negLenPanic) => .error .panicked
        | (v, _) => .ok v

/-- The attempt loop of PutWithTTL succeeds as soon as one write transaction
does. -/
def writeSucceeds (attemptOk : Nat → Bool) (numRetries : Nat) : Bool :=
  (List.range numRetries).any attemptOk

/-- Store.PutWithTTL on the default bucket: up to numRetries transactional
writes of the marshalled record; a failed transaction has no effect, the
first successful one stores the record; on exhaustion the last error is
returned (wrapped with the key in the source). -/
def putWithTTL (attemptOk : Nat → Bool) (numRetries : Nat) (st : StoreSt)
    (key : String) (value : List Nat) (ttl : Int) (now : Int) :
    StoreSt × Except Unit Unit :=
  if writeSucceeds attemptOk numRetries then
    ({ st with db := fun k => if k = key then some (marshalValueT (newValueT value ttl now)) else st.db k }, .ok ())
  else (st, .error ())

/-- tryAddToLRU: no-op without a cache; otherwise lru.Add with the zero
expiry for a non-positive ttl and now plus ttl seconds otherwise. -/
def tryAddToLRU (st : StoreSt) (key : String) (value : List Nat) (ttl : Int) (now : Int) :
    StoreSt :=
  match st.cache with
  | none => st
  | some c => { st with cache := some (c.Add key (if 0 < ttl then some (now + ttl) else none) value) }

/-- Store.UpdateWithTTL at the byte level: the caller's value is its
MarshalBinary outcome.  On a marshal error or a write failure nothing else
happens; on write success the cache is then populated with the marshalled
bytes. -/
def updateWithTTL (attemptOk : Nat → Bool) (numRetries : Nat) (st : StoreSt)
    (key : String) (marshalRes : Except Unit (List Nat)) (ttl : Int) (now : Int) :
    StoreSt × Except UpdErr Unit :=
  match marshalRes with
  | .error _ => (st, .error .marshalFailed)
  | .ok buf =>
      match putWithTTL attemptOk numRetries st key buf ttl now with
      | (st1, .error _) => (st1, .error .writeFailed)
      | (st1, .ok _) => (tryAddToLRU st1 key buf ttl now, .ok ())

/-- The slow path of Store.Load: read the record from the engine, classify
expiry, and hand the stored value bytes to the target's UnmarshalBinary.
The ok payload is the byte string given to the target; the cache is not
touched here. -/
def loadSlow (readErr : Option Unit) (st : StoreSt) (now : Int) (key : String) :
    StoreSt × Except LErr (List Nat) :=
  match storeGet readErr st.db key with
  | .error e => (st, .error e)
  | .ok valT => if valT.isExpired now then (st, .error .expired) else (st, .ok valT.Value)

/-- Store.Load: with a cache, first lru.Get (which may reorder or lazily
drop an expired entry); a hit returns the cached bytes, a miss falls back
to the slow path. -/
def load (readErr : Option Unit) (st : StoreSt) (now : Int) (key : String) :
    StoreSt × Except LErr (List Nat) :=
  match st.cache with
  | none => loadSlow readErr st now key
  | some c =>
      let gr := c.Get now key
      let st1 : StoreSt := { st with cache := some gr.1 }
      match gr.2 with
      | some v => (st1, .ok v)
      | none => loadSlow readErr st1 now key

/-- The body run under the single-flight group in MemoizeWithTTL, for the
(sequential) owner: run the compute function, marshal its result (both
folded into the f argument), PutWithTTL, then tryAddToLRU and decode into
the target. -/
def memoizeFlight (attemptOk : Nat → Bool) (numRetries : Nat) (st : StoreSt)
    (now : Int) (key : String) (f : Except Unit (List Nat)) (ttl : Int) :
    StoreSt × Except MErr (List Nat) :=
  match f with
  | .error _ => (st, .error .computeFailed)
  | .ok buf =>
      match putWithTTL attemptOk numRetries st key buf ttl now with
      | (st1, .error _) => (st1, .error .writeFailed)
      | (st1, .ok _) => (tryAddToLRU st1 key buf ttl now, .ok buf)

/-- Store.MemoizeWithTTL for a single (owner) caller: Load first; on
ErrKeyNotFound or ErrKeyExpired run the flight body; any other Load error
is returned unchanged.  The Bool records whether the compute function was
invoked. -/
def memoizeWithTTL (readErr : Option Unit) (attemptOk : Nat → Bool) (numRetries : Nat)
    (st : StoreSt) (now : Int) (key : String) (f : Except Unit (List Nat)) (ttl : Int) :
    StoreSt × Except MErr (List Nat) × Bool :=
  let lr := load readErr st now key
  match lr.2 with
  | .ok v => (lr.1, .ok v, false)
  | .error .notFound =>
      ((memoizeFlight attemptOk numRetries lr.1 now key f ttl).1,
       (memoizeFlight attemptOk numRetries lr.1 now key f ttl).2, true)
  | .error .expired =>
      ((memoizeFlight attemptOk numRetries lr.1 now key f ttl).1,
       (memoizeFlight attemptOk numRetries lr.1 now key f ttl).2, true)
  | .error e => (lr.1, .error (.load e), false)

/-- A value of n zero bytes, written with its own recursion so that terms
like zeroBytes 2147483648 stay symbolic in proofs. -/
def zeroBytes : Nat → List Nat
  | 0 => []
  | n + 1 => 0 :: zeroBytes n

/-! ## Round trip of the record codec -/

theorem unmarshalSt_marshal (v : ValueT)
    (h1 : v.Value.length < 2147483648)
    (h2 : goTimeOfUnix (goTimeUnix v.Expire) = v.Expire)
    (h3 : -9223372036854775808 ≤ goTimeUnix v.Expire)
    (h4 : goTimeUnix v.Expire < 9223372036854775808) :
    unmarshalSt (marshalValueT v) = (v, none) := by
  obtain ⟨val, ex⟩ := v
  simp only at h1 h2 h3 h4
  have hA : (natToLE4 (int32Wrap (val.length : Int))).length = 4 := natToLE4_length _
  have hB : (natToLE8 (int64Wrap (goTimeUnix ex))).length = 8 := natToLE8_length _
  have hx : int32OfBytes (natToLE4 (int32Wrap (val.length : Int))) = (val.length : Int) := by
    apply int32_rt <;> omega
  have hy : int64OfBytes (natToLE8 (int64Wrap (goTimeUnix ex))) = goTimeUnix ex :=
    int64_rt _ h3 h4
  simp only [marshalValueT]
  rw [List.append_assoc]
  simp only [unmarshalSt, List.take_left' hA, List.drop_left' hA, hx,
    List.length_append, hA, hB]
  have hc1 : ¬ (4 + (val.length + 8) < 4) := by omega
  have hc2 : ¬ (val.length + 8 = 0) := by omega
  rw [if_neg hc1]
  have hn : ((val.length : Int)).toNat = val.length := Int.toNat_natCast _
  have hnn : ¬ ((val.length : Int) < 0) := by omega
  rw [if_neg hnn]
  simp only [hn, List.length_append, hB, hc2, if_false, List.take_left, List.drop_left]
  have hz : val.length - (val.length + 8) = 0 := by omega
  rw [hz]
  simp only [List.replicate, List.append_nil]
  have hc3 : ¬ ((8 : Nat) < 8) := by omega
  rw [if_neg hc3]
  have ht : (natToLE8 (int64Wrap (goTimeUnix ex))).take 8 = natToLE8 (int64Wrap (goTimeUnix ex)) := by
    rw [← hB, List.take_length]
  rw [ht, hy, h2]

theorem zeroBytes_length (n : Nat) : (zeroBytes n).length = n := by
  induction n with
  | zero => rfl
  | succ n ih => simp [zeroBytes, ih]

/-! ## LRU lemmas -/

theorem keys_eraseP (l : List Entry) (k : String) :
    (l.eraseP (fun x => x.key == k)).map Entry.key = (l.map Entry.key).erase k := by
  induction l with
  | nil => rfl
  | cons e l ih =>
    by_cases h : e.key = k
    · simp [List.eraseP_cons, List.erase_cons, h]
    · simp [List.eraseP_cons, List.erase_cons, h, ih]

theorem find?_entry_eq_none {l : List Entry} {k : String}
    (h : k ∉ l.map Entry.key) : l.find? (fun e => e.key == k) = none := by
  rw [List.find?_eq_none]
  intro x hx
  simp only [beq_iff_eq]
  intro hk
  exact h (hk ▸ List.mem_map_of_mem Entry.key hx)

theorem lruAdd_new_keys (c : LRU) (k : String) (exp : Option Int) (v : List Nat)
    (hmem : k ∉ lruKeys c) (hlen : c.list.length ≤ c.size) :
    lruKeys (c.Add k exp v) = (k :: lruKeys c).take c.size
    ∧ (c.Add k exp v).size = c.size := by
  unfold LRU.Add
  rw [find?_entry_eq_none hmem]
  dsimp only
  by_cases h : c.size < (Entry.mk k exp v :: c.list).length
  · rw [if_pos h]
    refine ⟨?_, rfl⟩
    show ((Entry.mk k exp v :: c.list).dropLast).map Entry.key = _
    rw [List.map_dropLast, List.dropLast_eq_take]
    have hcs : (Entry.mk k exp v :: c.list : List Entry).length - 1 = c.size := by
      simp only [List.length_cons] at h ⊢
      omega
    rw [List.length_map, hcs]
    rfl
  · rw [if_neg h]
    refine ⟨?_, rfl⟩
    show (Entry.mk k exp v :: c.list).map Entry.key = _
    rw [List.take_of_length_le]
    · rfl
    · simp only [List.length_cons] at h
      simp only [List.length_cons, List.length_map, lruKeys, List.length_map]
      omega

theorem take_append_take {α : Type} (A B : List α) (n : Nat) :
    (A ++ B.take n).take n = (A ++ B).take n := by
  rw [List.take_append_eq_append_take, List.take_append_eq_append_take,
    List.take_take, Nat.min_eq_left (Nat.sub_le n A.length)]

theorem addList_keys (ps : List Entry) :
    ∀ (c : LRU), (lruKeys c).Nodup → c.list.length ≤ c.size →
    (ps.map Entry.key).Nodup → (∀ e ∈ ps, e.key ∉ lruKeys c) →
    lruKeys (AddList c ps) = ((ps.map Entry.key).reverse ++ lruKeys c).take c.size
    ∧ (AddList c ps).size = c.size := by
  induction ps with
  | nil =>
    intro c _ h2 _ _
    refine ⟨?_, rfl⟩
    show lruKeys c = (([] : List String) ++ lruKeys c).take c.size
    rw [List.nil_append, List.take_of_length_le]
    simpa [lruKeys] using h2
  | cons p ps ih =>
    intro c h1 h2 h3 h4
    have h3m : (p.key :: ps.map Entry.key).Nodup := by simpa using h3
    have hmem : p.key ∉ lruKeys c := h4 p (List.mem_cons_self _ _)
    obtain ⟨hk1, hk2⟩ := lruAdd_new_keys c p.key p.expire p.value hmem h2
    have hlen1 : (c.Add p.key p.expire p.value).list.length ≤ (c.Add p.key p.expire p.value).size := by
      rw [hk2]
      have hcap : (lruKeys (c.Add p.key p.expire p.value)).length ≤ c.size := by
        rw [hk1]; exact List.length_take_le _ _
      simpa [lruKeys] using hcap
    have hnodup1 : (lruKeys (c.Add p.key p.expire p.value)).Nodup := by
      rw [hk1]
      exact (List.take_sublist _ _).nodup (List.nodup_cons.mpr ⟨hmem, h1⟩)
    have h4' : ∀ e ∈ ps, e.key ∉ lruKeys (c.Add p.key p.expire p.value) := by
      intro e he hcon
      rw [hk1] at hcon
      rcases List.mem_cons.mp (List.mem_of_mem_take hcon) with h | h
      · exact (List.nodup_cons.mp h3m).1 (h ▸ List.mem_map_of_mem Entry.key he)
      · exact h4 e (List.mem_cons_of_mem _ he) h
    obtain ⟨ih1, ih2⟩ := ih (c.Add p.key p.expire p.value) hnodup1 hlen1 (List.nodup_cons.mp h3m).2 h4'
    constructor
    · show lruKeys (AddList (c.Add p.key p.expire p.value) ps) = _
      rw [ih1, hk1, hk2, take_append_take]
      simp [List.reverse_cons, List.append_assoc]
    · show (AddList (c.Add p.key p.expire p.value) ps).size = c.size
      rw [ih2, hk2]

/-! ## Claim C3 -/

/-- Claim C3: a put (lru.Add) of a key not already present while the cache
holds its capacity of entries evicts exactly one entry, the one at the back
of the recency list, and never more than one; and after any sequence of puts
with distinct keys on a fresh cache of capacity C at most C entries are
resident and they are exactly the most recently touched keys, most recent
first. -/
theorem lru_add_eviction_capacity
    (c : LRU) (k : String) (exp : Option Int) (v : List Nat)
    (ps : List Entry) (C : Nat)
    (h1 : k ∉ lruKeys c) (h2 : c.list.length = c.size) (h3 : 0 < c.size)
    (h4 : (ps.map Entry.key).Nodup) :
    (lruKeys (c.Add k exp v) = k :: (lruKeys c).dropLast
      ∧ (c.Add k exp v).list.length = c.size)
    ∧ lruKeys (AddList (newLRU C) ps) = ((ps.map Entry.key).reverse).take C
    ∧ (AddList (newLRU C) ps).list.length ≤ C := by
  constructor
  · unfold LRU.Add
    rw [find?_entry_eq_none h1]
    dsimp only
    have h : c.size < (Entry.mk k exp v :: c.list).length := by
      simp only [List.length_cons]; omega
    rw [if_pos h]
    have hne : c.list ≠ [] := by
      intro hcon
      rw [hcon] at h2
      simp only [List.length_nil] at h2
      omega
    constructor
    · show ((Entry.mk k exp v :: c.list).dropLast).map Entry.key = _
      rw [List.dropLast_cons_of_ne_nil hne]
      simp [lruKeys, List.map_dropLast]
    · show ((Entry.mk k exp v :: c.list).dropLast).length = c.size
      simp only [List.length_dropLast, List.length_cons]
      omega
  · have hres := addList_keys ps (newLRU C) (by simp [lruKeys, newLRU])
      (by simp [newLRU]) h4 (by simp [lruKeys, newLRU])
    obtain ⟨ha, _⟩ := hres
    constructor
    · rw [ha]
      simp [lruKeys, newLRU]
    · have hl : (lruKeys (AddList (newLRU C) ps)).length ≤ C := by
        rw [ha]
        exact List.length_take_le (newLRU C).size
          ((ps.map Entry.key).reverse ++ lruKeys (newLRU C))
      simpa [lruKeys] using hl

theorem lru_add_eviction_capacity_witness :
    (("c" : String) ∉ lruKeys (LRU.mk [⟨"b", none, [2]⟩, ⟨"a", none, [1]⟩] 2)
      ∧ (LRU.mk [⟨"b", none, [2]⟩, ⟨"a", none, [1]⟩] 2).list.length
          = (LRU.mk [⟨"b", none, [2]⟩, ⟨"a", none, [1]⟩] 2).size
      ∧ 0 < (LRU.mk [⟨"b", none, [2]⟩, ⟨"a", none, [1]⟩] 2).size
      ∧ (([⟨"x", none, [1]⟩, ⟨"y", none, [2]⟩, ⟨"z", none, [3]⟩] : List Entry).map Entry.key).Nodup)
    ∧ ((lruKeys ((LRU.mk [⟨"b", none, [2]⟩, ⟨"a", none, [1]⟩] 2).Add "c" none [3])
          = "c" :: (lruKeys (LRU.mk [⟨"b", none, [2]⟩, ⟨"a", none, [1]⟩] 2)).dropLast
        ∧ ((LRU.mk [⟨"b", none, [2]⟩, ⟨"a", none, [1]⟩] 2).Add "c" none [3]).list.length
            = (LRU.mk [⟨"b", none, [2]⟩, ⟨"a", none, [1]⟩] 2).size)
      ∧ lruKeys (AddList (newLRU 2) [⟨"x", none, [1]⟩, ⟨"y", none, [2]⟩, ⟨"z", none, [3]⟩])
          = (([⟨"x", none, [1]⟩, ⟨"y", none, [2]⟩, ⟨"z", none, [3]⟩] : List Entry).map Entry.key).reverse.take 2
      ∧ (AddList (newLRU 2) [⟨"x", none, [1]⟩, ⟨"y", none, [2]⟩, ⟨"z", none, [3]⟩]).list.length ≤ 2) :=
  ⟨by decide,
   lru_add_eviction_capacity (LRU.mk [⟨"b", none, [2]⟩, ⟨"a", none, [1]⟩] 2) "c" none [3]
     [⟨"x", none, [1]⟩, ⟨"y", none, [2]⟩, ⟨"z", none, [3]⟩] 2
     (by decide) (by decide) (by decide) (by decide)⟩

/-! ## Claim C4 -/

/-- Claim C4: lru.Get of a present entry whose expiry is set and with now at
or past the expiry removes the entry and returns not-found, decreasing the
resident count by one; and a cache get never returns the value of an expired
entry. -/
theorem lru_get_expired_removes
    (c : LRU) (now : Int) (key : String) (h1 : (lruKeys c).Nodup) :
    (∀ e t, c.list.find? (fun x => x.key == key) = some e → e.expire = some t → t ≤ now →
      (c.Get now key).2 = none
      ∧ (c.Get now key).1.list.length + 1 = c.list.length
      ∧ key ∉ lruKeys (c.Get now key).1)
    ∧ (∀ v, (c.Get now key).2 = some v →
      ∃ e, c.list.find? (fun x => x.key == key) = some e ∧ e.value = v
        ∧ (e.expire = none ∨ ∃ t, e.expire = some t ∧ now < t)) := by
  constructor
  · intro e t hf he hle
    have hkey : key ∈ c.list.map Entry.key := by
      have hmem := List.mem_of_find?_eq_some hf
      have hp : e.key = key := by simpa using List.find?_some hf
      exact hp ▸ List.mem_map_of_mem Entry.key hmem
    unfold LRU.Get
    rw [hf]
    dsimp only
    rw [he]
    dsimp only
    rw [if_neg (by omega)]
    refine ⟨rfl, ?_, ?_⟩
    · show (c.list.eraseP (fun x => x.key == key)).length + 1 = c.list.length
      have hkeys := keys_eraseP c.list key
      have hlE : ((c.list.map Entry.key).erase key).length = (c.list.map Entry.key).length - 1 :=
        List.length_erase_of_mem hkey
      have h2' : (c.list.eraseP (fun x => x.key == key)).length
          = ((c.list.map Entry.key).erase key).length := by
        rw [← hkeys, List.length_map]
      have hpos : 0 < (c.list.map Entry.key).length :=
        List.length_pos.mpr (List.ne_nil_of_mem hkey)
      have hml : (c.list.map Entry.key).length = c.list.length := List.length_map _ _
      omega
    · show key ∉ (c.list.eraseP (fun x => x.key == key)).map Entry.key
      rw [keys_eraseP]
      exact h1.not_mem_erase
  · intro v hv
    unfold LRU.Get at hv
    cases hf : c.list.find? (fun x => x.key == key) with
    | none =>
      rw [hf] at hv
      simp at hv
    | some e =>
      rw [hf] at hv
      dsimp only at hv
      cases hexp : e.expire with
      | none =>
        rw [hexp] at hv
        dsimp only at hv
        exact ⟨e, rfl, by simpa using hv, Or.inl hexp⟩
      | some t =>
        rw [hexp] at hv
        dsimp only at hv
        by_cases hlt : now < t
        · rw [if_pos hlt] at hv
          exact ⟨e, rfl, by simpa using hv, Or.inr ⟨t, hexp, hlt⟩⟩
        · rw [if_neg hlt] at hv
          simp at hv

theorem lru_get_expired_removes_witness :
    (lruKeys (LRU.mk [⟨"k", some 5, [9]⟩] 1)).Nodup
    ∧ (((LRU.mk [⟨"k", some 5, [9]⟩] 1).Get 7 "k").2 = none
      ∧ ((LRU.mk [⟨"k", some 5, [9]⟩] 1).Get 7 "k").1.list.length + 1
          = (LRU.mk [⟨"k", some 5, [9]⟩] 1).list.length
      ∧ "k" ∉ lruKeys ((LRU.mk [⟨"k", some 5, [9]⟩] 1).Get 7 "k").1) :=
  ⟨by decide,
   (lru_get_expired_removes (LRU.mk [⟨"k", some 5, [9]⟩] 1) 7 "k" (by decide)).1
     ⟨"k", some 5, [9]⟩ 5 (by decide) rfl (by decide)⟩

/-! ## Claim C9 -/

/-- Claim C9: lru.Add with a key already present replaces the entry's value
and moves it to the front, but keeps the entry's stored expiry, ignoring the
expire argument of the call; consequently an UpdateWithTTL on an
already-cached key leaves the old cached expiry in force. -/
theorem lru_add_existing_keeps_expiry
    (c : LRU) (key : String) (e : Entry) (exp2 : Option Int) (v : List Nat)
    (attemptOk : Nat → Bool) (numRetries : Nat) (db : String → Option (List Nat))
    (buf : List Nat) (ttl now : Int)
    (h1 : c.list.find? (fun x => x.key == key) = some e)
    (h2 : writeSucceeds attemptOk numRetries = true) :
    ((c.Add key exp2 v).list = ⟨e.key, e.expire, v⟩ :: c.list.eraseP (fun x => x.key == key)
      ∧ (c.Add key exp2 v).list.head? = some ⟨e.key, e.expire, v⟩)
    ∧ (∃ c2, (updateWithTTL attemptOk numRetries ⟨db, some c⟩ key (.ok buf) ttl now).1.cache = some c2
        ∧ c2.list.head? = some ⟨e.key, e.expire, buf⟩) := by
  have hadd : ∀ (w : List Nat) (x : Option Int),
      (c.Add key x w).list = ⟨e.key, e.expire, w⟩ :: c.list.eraseP (fun z => z.key == key) := by
    intro w x
    unfold LRU.Add
    rw [h1]
  refine ⟨⟨hadd v exp2, by rw [hadd]; rfl⟩, ?_⟩
  simp only [updateWithTTL, putWithTTL, h2, if_true]
  refine ⟨c.Add key (if 0 < ttl then some (now + ttl) else none) buf, ?_, ?_⟩
  · simp [tryAddToLRU]
  · rw [hadd]
    rfl

theorem lru_add_existing_keeps_expiry_witness :
    ((LRU.mk [⟨"k", some 11, [1]⟩] 2).list.find? (fun x => x.key == "k") = some ⟨"k", some 11, [1]⟩
      ∧ writeSucceeds (fun _ => true) 3 = true)
    ∧ ((((LRU.mk [⟨"k", some 11, [1]⟩] 2).Add "k" (some 99) [7]).list
          = ⟨"k", some 11, [7]⟩ :: (LRU.mk [⟨"k", some 11, [1]⟩] 2).list.eraseP (fun x => x.key == "k")
        ∧ ((LRU.mk [⟨"k", some 11, [1]⟩] 2).Add "k" (some 99) [7]).list.head? = some ⟨"k", some 11, [7]⟩)
      ∧ (∃ c2, (updateWithTTL (fun _ => true) 3 ⟨fun _ => none, some (LRU.mk [⟨"k", some 11, [1]⟩] 2)⟩ "k" (.ok [7]) 60 0).1.cache = some c2
          ∧ c2.list.head? = some ⟨"k", some 11, [7]⟩)) :=
  ⟨⟨by decide, by decide⟩,
   lru_add_existing_keeps_expiry (LRU.mk [⟨"k", some 11, [1]⟩] 2) "k" ⟨"k", some 11, [1]⟩
     (some 99) [7] (fun _ => true) 3 (fun _ => none) [7] 60 0 (by decide) (by decide)⟩

/-! ## Claim C2 -/

/-- Claim C2: in UpdateWithTTL the cache is populated only after the
persistent write has succeeded: when every write attempt fails the whole
state is unchanged and an error is returned, so for a key absent from the
cache a subsequent Load misses the cache and re-reads the persistent store
(it equals the slow path). -/
theorem update_failed_write_cache_unchanged
    (attemptOk : Nat → Bool) (numRetries : Nat) (st : StoreSt) (key : String)
    (buf : List Nat) (ttl now now2 : Int) :
    ((updateWithTTL attemptOk numRetries st key (.ok buf) ttl now).1.cache ≠ st.cache →
      writeSucceeds attemptOk numRetries = true)
    ∧ (writeSucceeds attemptOk numRetries = false →
      updateWithTTL attemptOk numRetries st key (.ok buf) ttl now = (st, .error .writeFailed)
      ∧ (key ∉ cacheKeysOf st →
        load none st now2 key = loadSlow none st now2 key)) := by
  cases hw : writeSucceeds attemptOk numRetries with
  | true =>
    refine ⟨fun _ => rfl, fun hcon => ?_⟩
    cases hcon
  | false =>
    have hupd : updateWithTTL attemptOk numRetries st key (.ok buf) ttl now
        = (st, .error .writeFailed) := by
      simp only [updateWithTTL, putWithTTL, hw]
      rfl
    refine ⟨fun hne => absurd (by rw [hupd]) hne, fun _ => ⟨hupd, fun hmem => ?_⟩⟩
    cases hc : st.cache with
    | none =>
      unfold load
      rw [hc]
    | some c =>
      have hck : cacheKeysOf st = lruKeys c := by
        unfold cacheKeysOf
        rw [hc]
      have hmemc : key ∉ lruKeys c := hck ▸ hmem
      have hfind : c.list.find? (fun e => e.key == key) = none :=
        find?_entry_eq_none hmemc
      have hget : c.Get now2 key = (c, none) := by
        unfold LRU.Get
        rw [hfind]
      unfold load
      rw [hc]
      dsimp only
      rw [hget]
      dsimp only
      have hst : ({ st with cache := some c } : StoreSt) = st := by
        obtain ⟨db0, cache0⟩ := st
        simp only at hc
        rw [hc]
      rw [hst]

theorem update_failed_write_cache_unchanged_witness :
    writeSucceeds (fun _ => false) 3 = false
    ∧ (updateWithTTL (fun _ => false) 3 ⟨fun _ => none, some (newLRU 2)⟩ "k" (.ok [1]) 0 0
        = (⟨fun _ => none, some (newLRU 2)⟩, .error .writeFailed)
      ∧ (("k" : String) ∉ cacheKeysOf ⟨fun _ => none, some (newLRU 2)⟩ →
        load none ⟨fun _ => none, some (newLRU 2)⟩ 0 "k"
          = loadSlow none ⟨fun _ => none, some (newLRU 2)⟩ 0 "k")) :=
  ⟨by decide,
   (update_failed_write_cache_unchanged (fun _ => false) 3
     ⟨fun _ => none, some (newLRU 2)⟩ "k" [1] 0 0 0).2 (by decide)⟩

/-! ## Claim C7 -/

/-- Claim C7: MemoizeWithTTL invokes the compute function only when the
initial Load fails with not-found or expired; any other Load failure is
returned to the caller unchanged and the compute function is never invoked
in that case. -/
theorem memoize_other_load_error
    (readErr : Option Unit) (attemptOk : Nat → Bool) (numRetries : Nat)
    (st : StoreSt) (now : Int) (key : String) (f : Except Unit (List Nat)) (ttl : Int) :
    (∀ e, (load readErr st now key).2 = .error e → e ≠ .notFound → e ≠ .expired →
      memoizeWithTTL readErr attemptOk numRetries st now key f ttl
        = ((load readErr st now key).1, .error (.load e), false))
    ∧ ((memoizeWithTTL readErr attemptOk numRetries st now key f ttl).2.2 = true →
      (load readErr st now key).2 = .error .notFound
      ∨ (load readErr st now key).2 = .error .expired) := by
  constructor
  · intro e he hne1 hne2
    unfold memoizeWithTTL
    dsimp only
    rw [he]
    cases e with
    | notFound => exact absurd rfl hne1
    | expired => exact absurd rfl hne2
    | engineErr => rfl
    | panicked => rfl
  · intro hinv
    unfold memoizeWithTTL at hinv
    dsimp only at hinv
    cases hl : (load readErr st now key).2 with
    | ok v =>
      rw [hl] at hinv
      simp at hinv
    | error e =>
      rw [hl] at hinv
      cases e with
      | notFound => exact Or.inl rfl
      | expired => exact Or.inr rfl
      | engineErr => simp at hinv
      | panicked => simp at hinv

theorem memoize_other_load_error_witness :
    (load (some ()) (⟨fun _ => none, none⟩ : StoreSt) 0 "k").2 = .error .engineErr
    ∧ memoizeWithTTL (some ()) (fun _ => true) 3 ⟨fun _ => none, none⟩ 0 "k" (.ok [1]) 0
        = ((load (some ()) (⟨fun _ => none, none⟩ : StoreSt) 0 "k").1,
           .error (.load .engineErr), false) :=
  ⟨by decide,
   (memoize_other_load_error (some ()) (fun _ => true) 3 ⟨fun _ => none, none⟩ 0 "k"
     (.ok [1]) 0).1 .engineErr (by decide) (by decide) (by decide)⟩

/-! ## Claim C5 -/

/-- Claim C5 counterexample: with caching enabled (an empty LRU of size 10)
and a valid record for the key in the engine, Load returns the stored value
successfully yet the key is still not resident in the cache afterwards: the
slow path of this Load does not populate the cache, contradicting the claim
that the cache is populated with the loaded value before Load returns. -/
theorem load_slow_success_no_cache_fill_cex :
    (load none ⟨fun k => if k = "k" then some (marshalValueT ⟨[1, 2], none⟩) else none,
        some (newLRU 10)⟩ 5 "k").2 = .ok [1, 2]
    ∧ ("k" : String) ∉ cacheKeysOf (load none
        ⟨fun k => if k = "k" then some (marshalValueT ⟨[1, 2], none⟩) else none,
        some (newLRU 10)⟩ 5 "k").1 := by decide

/-- Claim C5 amended: a Load that misses (or bypasses) the cache and reads
the record successfully from the persistent engine returns the stored value
bytes and leaves the store state unchanged: in particular the cache is not
populated by the slow path (only the update and memoize write paths populate
it). -/
theorem load_slow_success_state_unchanged
    (st : StoreSt) (now : Int) (key : String) (valT : ValueT)
    (h1 : key ∉ cacheKeysOf st)
    (h2 : storeGet none st.db key = .ok valT)
    (h3 : valT.isExpired now = false) :
    load none st now key = (st, .ok valT.Value) := by
  have hslow : loadSlow none st now key = (st, .ok valT.Value) := by
    unfold loadSlow
    rw [h2]
    dsimp only
    rw [h3]
    simp
  cases hc : st.cache with
  | none =>
    unfold load
    rw [hc]
    exact hslow
  | some c =>
    have hck : cacheKeysOf st = lruKeys c := by
      unfold cacheKeysOf
      rw [hc]
    have hmemc : key ∉ lruKeys c := hck ▸ h1
    have hfind : c.list.find? (fun e => e.key == key) = none :=
      find?_entry_eq_none hmemc
    have hget : c.Get now key = (c, none) := by
      unfold LRU.Get
      rw [hfind]
    unfold load
    rw [hc]
    dsimp only
    rw [hget]
    dsimp only
    have hst : ({ st with cache := some c } : StoreSt) = st := by
      obtain ⟨db0, cache0⟩ := st
      simp only at hc
      rw [hc]
    rw [hst]
    exact hslow

theorem load_slow_success_state_unchanged_witness :
    (("k" : String) ∉ cacheKeysOf ⟨fun k => if k = "k" then some (marshalValueT ⟨[3], none⟩) else none, some (newLRU 4)⟩
      ∧ storeGet none (fun k => if k = "k" then some (marshalValueT ⟨[3], none⟩) else none) "k" = .ok ⟨[3], none⟩
      ∧ (ValueT.mk [3] none).isExpired 9 = false)
    ∧ load none ⟨fun k => if k = "k" then some (marshalValueT ⟨[3], none⟩) else none, some (newLRU 4)⟩ 9 "k"
        = (⟨fun k => if k = "k" then some (marshalValueT ⟨[3], none⟩) else none, some (newLRU 4)⟩, .ok [3]) :=
  ⟨⟨by decide, by decide, by decide⟩,
   load_slow_success_state_unchanged
     ⟨fun k => if k = "k" then some (marshalValueT ⟨[3], none⟩) else none, some (newLRU 4)⟩
     9 "k" ⟨[3], none⟩ (by decide) (by decide) (by decide)⟩

/-! ## Claim C6 -/

/-- Claim C6 counterexample: a record written with ttl = 0 (value [7], so the
expiry field is the 8 bytes after the 5-byte prefix-plus-value) stores
-62135596800 in its expiry timestamp field, the Unix() seconds of Go's zero
time.Time, and not 0 as claimed. -/
theorem marshal_zero_ttl_expiry_field_cex :
    int64OfBytes ((marshalValueT (newValueT [7] 0 0)).drop 5) = -62135596800
    ∧ int64OfBytes ((marshalValueT (newValueT [7] 0 0)).drop 5) ≠ 0 := by decide

/-- Claim C6 amended: every record persisted by PutWithTTL is laid out as
[value length: 4 bytes LE int32][value bytes][expiry: 8 bytes LE int64 unix
seconds]; for ttl = 0 the stored expiry field is -62135596800, the Unix()
seconds of Go's zero time.Time (not 0), which UnmarshalBinary maps back to
the zero time, so it still means never-expires. -/
theorem putWithTTL_wire_layout
    (value : List Nat) (ttl now : Int)
    (h1 : value.length < 2147483648)
    (h2 : -9223372036854775808 ≤ goTimeUnix (newValueT value ttl now).Expire)
    (h3 : goTimeUnix (newValueT value ttl now).Expire < 9223372036854775808) :
    (marshalValueT (newValueT value ttl now)).length = 4 + value.length + 8
    ∧ int32OfBytes ((marshalValueT (newValueT value ttl now)).take 4) = value.length
    ∧ ((marshalValueT (newValueT value ttl now)).drop 4).take value.length = value
    ∧ int64OfBytes ((marshalValueT (newValueT value ttl now)).drop (4 + value.length))
        = goTimeUnix (newValueT value ttl now).Expire
    ∧ (ttl = 0 → goTimeUnix (newValueT value ttl now).Expire = -62135596800) := by
  have hval : (newValueT value ttl now).Value = value := rfl
  have hA : (natToLE4 (int32Wrap ((newValueT value ttl now).Value.length : Int))).length = 4 :=
    natToLE4_length _
  have hm : marshalValueT (newValueT value ttl now)
      = natToLE4 (int32Wrap ((newValueT value ttl now).Value.length : Int))
        ++ ((newValueT value ttl now).Value
        ++ natToLE8 (int64Wrap (goTimeUnix (newValueT value ttl now).Expire))) := by
    rw [marshalValueT, List.append_assoc]
  refine ⟨?_, ?_, ?_, ?_, ?_⟩
  · rw [hm]
    simp only [List.length_append, natToLE4_length, natToLE8_length, hval]
    omega
  · rw [hm, List.take_left' hA, hval]
    exact int32_rt _ (by omega) (by omega)
  · rw [hm, List.drop_left' hA, hval]
    exact List.take_left value _
  · have hAB : (natToLE4 (int32Wrap ((newValueT value ttl now).Value.length : Int))
        ++ (newValueT value ttl now).Value).length = 4 + value.length := by
      simp only [List.length_append, natToLE4_length, hval]
    rw [marshalValueT, List.drop_left' hAB]
    exact int64_rt _ h2 h3
  · intro h0
    simp [newValueT, h0, goTimeUnix, zeroTimeUnix]

theorem putWithTTL_wire_layout_witness :
    (([7, 8] : List Nat).length < 2147483648
      ∧ -9223372036854775808 ≤ goTimeUnix (newValueT [7, 8] 0 0).Expire
      ∧ goTimeUnix (newValueT [7, 8] 0 0).Expire < 9223372036854775808)
    ∧ ((marshalValueT (newValueT [7, 8] 0 0)).length = 4 + ([7, 8] : List Nat).length + 8
      ∧ int32OfBytes ((marshalValueT (newValueT [7, 8] 0 0)).take 4) = ([7, 8] : List Nat).length
      ∧ ((marshalValueT (newValueT [7, 8] 0 0)).drop 4).take ([7, 8] : List Nat).length = [7, 8]
      ∧ int64OfBytes ((marshalValueT (newValueT [7, 8] 0 0)).drop (4 + ([7, 8] : List Nat).length))
          = goTimeUnix (newValueT [7, 8] 0 0).Expire
      ∧ ((0 : Int) = 0 → goTimeUnix (newValueT [7, 8] 0 0).Expire = -62135596800)) :=
  ⟨⟨by decide, by decide, by decide⟩,
   putWithTTL_wire_layout [7, 8] 0 0 (by decide) (by decide) (by decide)⟩

/-! ## Claim C8 -/

theorem int32OfBytes_natToLE4_neg (u : Nat) (h1 : 2147483648 ≤ u) (h2 : u < 4294967296) :
    int32OfBytes (natToLE4 (int32Wrap (u : Int))) < 0 := by
  simp only [natToLE4, int32Wrap, int32OfBytes, natFromLE]
  omega

theorem unmarshalSt_marshal_neg (v : ValueT)
    (h1 : 2147483648 ≤ v.Value.length) (h2 : v.Value.length < 4294967296) :
    unmarshalSt (marshalValueT v) = (⟨[], none⟩, some .negLenPanic) := by
  obtain ⟨val, ex⟩ := v
  simp only at h1 h2
  have hA : (natToLE4 (int32Wrap (val.length : Int))).length = 4 := natToLE4_length _
  have hneg : int32OfBytes (natToLE4 (int32Wrap (val.length : Int))) < 0 :=
    int32OfBytes_natToLE4_neg val.length h1 h2
  simp only [marshalValueT]
  rw [List.append_assoc]
  simp only [unmarshalSt, List.take_left' hA, List.length_append, hA, natToLE8_length]
  have hc1 : ¬ (4 + (val.length + 8) < 4) := by omega
  rw [if_neg hc1, if_pos hneg]


theorem storeGet_panic (db : String → Option (List Nat)) (key : String) (bs : List Nat)
    (hdb : db key = some bs) (hpanic : (unmarshalSt bs).2 = some UErr.negLenPanic) :
    storeGet none db key = .error .panicked := by
  unfold storeGet
  rw [hdb]
  dsimp only
  rcases hu : unmarshalSt bs with ⟨w, e⟩
  rw [hu] at hpanic
  simp only at hpanic
  subst hpanic
  rfl

theorem storeGet_ok (db : String → Option (List Nat)) (key : String) (bs : List Nat) (w : ValueT)
    (hdb : db key = some bs) (hok : unmarshalSt bs = (w, none)) :
    storeGet none db key = .ok w := by
  unfold storeGet
  rw [hdb]
  dsimp only
  rw [hok]

theorem loadSlow_err (readErr : Option Unit) (st : StoreSt) (now : Int) (key : String) (e : LErr)
    (hg : storeGet readErr st.db key = .error e) :
    loadSlow readErr st now key = (st, .error e) := by
  unfold loadSlow
  rw [hg]

theorem loadSlow_ok (readErr : Option Unit) (st : StoreSt) (now : Int) (key : String) (w : ValueT)
    (hg : storeGet readErr st.db key = .ok w) (hexp : w.isExpired now = false) :
    loadSlow readErr st now key = (st, .ok w.Value) := by
  unfold loadSlow
  rw [hg]
  dsimp only
  rw [hexp]
  rfl

theorem load_nocache_eq (readErr : Option Unit) (db : String → Option (List Nat))
    (now : Int) (key : String) :
    load readErr ⟨db, none⟩ now key = loadSlow readErr ⟨db, none⟩ now key := rfl

/-- Claim C8 counterexamplesucceeding, Update of a 2147483648-byte value reports success, but the
subsequent Load does not yield the value: the int32 length field wrapped to
a negative number, so decoding the stored record hits the make-with-negative
-length panic instead of returning the value. -/
theorem update_then_load_giant_value_cex :
    (updateWithTTL (fun _ => true) 3 ⟨fun _ => none, none⟩ "k"
        (.ok (zeroBytes 2147483648)) 0 0).2 = .ok ()
    ∧ (load none (updateWithTTL (fun _ => true) 3 ⟨fun _ => none, none⟩ "k"
        (.ok (zeroBytes 2147483648)) 0 0).1 0 "k").2
      ≠ .ok (zeroBytes 2147483648)
    ∧ (load none (updateWithTTL (fun _ => true) 3 ⟨fun _ => none, none⟩ "k"
        (.ok (zeroBytes 2147483648)) 0 0).1 0 "k").2
      = .error .panicked := by
  have hws : writeSucceeds (fun _ => true) 3 = true := by decide
  have hnv : newValueT (zeroBytes 2147483648) 0 0 = ⟨zeroBytes 2147483648, none⟩ := by
    simp [newValueT]
  have hst : (updateWithTTL (fun _ => true) 3 ⟨fun _ => none, none⟩ "k"
      (.ok (zeroBytes 2147483648)) 0 0)
      = (⟨fun k => if k = "k" then some (marshalValueT (newValueT (zeroBytes 2147483648) 0 0)) else none, none⟩, .ok ()) := by
    unfold updateWithTTL putWithTTL
    rw [hws]
    rfl
  have hun : unmarshalSt (marshalValueT ⟨zeroBytes 2147483648, none⟩)
      = (⟨[], none⟩, some .negLenPanic) := by
    apply unmarshalSt_marshal_neg
    · show 2147483648 ≤ (zeroBytes 2147483648).length
      rw [zeroBytes_length]
    · show (zeroBytes 2147483648).length < 4294967296
      rw [zeroBytes_length]
      norm_num
  have hdb : (fun k => if k = "k" then some (marshalValueT (newValueT (zeroBytes 2147483648) 0 0)) else none) "k"
      = some (marshalValueT (newValueT (zeroBytes 2147483648) 0 0)) := by
    dsimp only
    rw [if_pos rfl]
  have hpan : (unmarshalSt (marshalValueT (newValueT (zeroBytes 2147483648) 0 0))).2
      = some UErr.negLenPanic := by
    rw [hnv, hun]
  have hget := storeGet_panic
    (fun k => if k = "k" then some (marshalValueT (newValueT (zeroBytes 2147483648) 0 0)) else none)
    "k" _ hdb hpan
  have hload : load none
      (⟨fun k => if k = "k" then some (marshalValueT (newValueT (zeroBytes 2147483648) 0 0)) else none,
        none⟩ : StoreSt) 0 "k"
      = (⟨fun k => if k = "k" then some (marshalValueT (newValueT (zeroBytes 2147483648) 0 0)) else none,
        none⟩, .error .panicked) := by
    rw [load_nocache_eq]
    exact loadSlow_err none _ 0 "k" .panicked hget
  refine ⟨by rw [hst], ?_, ?_⟩
  · rw [hst, hload]
    exact fun hcon => Except.noConfusion hcon
  · rw [hst, hload]

theorem update_then_load_roundtrip
    (attemptOk : Nat → Bool) (numRetries : Nat) (db : String → Option (List Nat))
    (key : String) (v : List Nat) (now now2 : Int)
    (h1 : writeSucceeds attemptOk numRetries = true)
    (h2 : v.length < 2147483648) :
    (updateWithTTL attemptOk numRetries ⟨db, none⟩ key (.ok v) 0 now).2 = .ok ()
    ∧ (load none (updateWithTTL attemptOk numRetries ⟨db, none⟩ key (.ok v) 0 now).1 now2 key).2
      = .ok v := by
  have hnv : newValueT v 0 now = ⟨v, none⟩ := by simp [newValueT]
  have hst : (updateWithTTL attemptOk numRetries ⟨db, none⟩ key (.ok v) 0 now)
      = (⟨fun k => if k = key then some (marshalValueT (newValueT v 0 now)) else db k, none⟩, .ok ()) := by
    unfold updateWithTTL putWithTTL
    rw [h1]
    rfl
  have hun : unmarshalSt (marshalValueT ⟨v, none⟩) = (⟨v, none⟩, none) := by
    apply unmarshalSt_marshal
    · exact h2
    · show goTimeOfUnix (goTimeUnix (none : GoTime)) = (none : GoTime)
      decide
    · show -9223372036854775808 ≤ goTimeUnix (none : GoTime)
      decide
    · show goTimeUnix (none : GoTime) < 9223372036854775808
      decide
  have hdb : (fun k => if k = key then some (marshalValueT (newValueT v 0 now)) else db k) key
      = some (marshalValueT (newValueT v 0 now)) := by
    dsimp only
    rw [if_pos rfl]
  have hok : unmarshalSt (marshalValueT (newValueT v 0 now)) = (⟨v, none⟩, none) := by
    rw [hnv]
    exact hun
  have hget := storeGet_ok
    (fun k => if k = key then some (marshalValueT (newValueT v 0 now)) else db k)
    key _ ⟨v, none⟩ hdb hok
  have hload : load none
      (⟨fun k => if k = key then some (marshalValueT (newValueT v 0 now)) else db k, none⟩ : StoreSt)
      now2 key
      = (⟨fun k => if k = key then some (marshalValueT (newValueT v 0 now)) else db k, none⟩, .ok v) := by
    rw [load_nocache_eq]
    exact loadSlow_ok none _ now2 key ⟨v, none⟩ hget rfl
  exact ⟨by rw [hst], by rw [hst, hload]⟩

/-- Claim C8 amended is the theorem update_then_load_roundtrip above: with
caching disabled and a succeeding write, for every key and every value of
fewer than 2147483648 bytes, Update followed by Load succeeds and returns
exactly the value's bytes (the encode/persist/read/decode pipeline is a
round trip); 2^31 bytes and beyond are excluded because the int32 length
field wraps, as the counterexample shows.  Witness instantiation: -/
theorem update_then_load_roundtrip_witness :
    (writeSucceeds (fun _ => true) 3 = true ∧ ([5, 6] : List Nat).length < 2147483648)
    ∧ ((updateWithTTL (fun _ => true) 3 ⟨fun _ => none, none⟩ "k" (.ok [5, 6]) 0 0).2 = .ok ()
      ∧ (load none (updateWithTTL (fun _ => true) 3 ⟨fun _ => none, none⟩ "k" (.ok [5, 6]) 0 0).1 9 "k").2
        = .ok [5, 6]) :=
  ⟨⟨by decide, by decide⟩,
   update_then_load_roundtrip (fun _ => true) 3 (fun _ => none) "k" [5, 6] 0 9
     (by decide) (by decide)⟩

/-! ## Claim C10 -/

/-- Claim C10 counterexample: the input of four 0xff bytes carries the length
prefix -1, and UnmarshalBinary then calls make with a negative length, which
panics at run time: not every input is handled without a panic. -/
theorem unmarshal_negative_length_panics_cex :
    unmarshalValueT [255, 255, 255, 255] = .error .negLenPanic
    ∧ int32OfBytes ([(255 : Nat), 255, 255, 255].take 4) < 0 := by decide

/-- Claim C10 amended: valueT.UnmarshalBinary terminates on every input, and
on every input whose 4-byte length prefix is nonnegative (inputs shorter
than 4 bytes included) it either fills the record or returns a read error,
never reaching the make-with-negative-length panic. -/
theorem unmarshal_total_no_panic (data : List Nat)
    (h : 0 ≤ int32OfBytes (data.take 4)) :
    (∃ v, unmarshalValueT data = .ok v) ∨ unmarshalValueT data = .error .ioError := by
  have hs : (unmarshalSt data).2 = none ∨ (unmarshalSt data).2 = some .ioError := by
    unfold unmarshalSt
    dsimp only
    by_cases h4 : data.length < 4
    · rw [if_pos h4]
      right
      rfl
    · rw [if_neg h4, if_neg (show ¬ int32OfBytes (data.take 4) < 0 by omega)]
      by_cases h0 : (data.drop 4).length = 0
      · rw [if_pos h0]
        right
        rfl
      · rw [if_neg h0]
        by_cases h8 : ((data.drop 4).drop (int32OfBytes (data.take 4)).toNat).length < 8
        · rw [if_pos h8]
          right
          rfl
        · rw [if_neg h8]
          left
          rfl
  unfold unmarshalValueT
  rcases hu : unmarshalSt data with ⟨w, e⟩
  rw [hu] at hs
  simp only at hs
  rcases hs with he | he
  · subst he
    exact Or.inl ⟨w, rfl⟩
  · subst he
    exact Or.inr rfl

theorem unmarshal_total_no_panic_witness :
    (0 ≤ int32OfBytes (([1, 0, 0, 0, 7, 0, 0, 0, 0, 0, 0, 0, 0] : List Nat).take 4))
    ∧ ((∃ v, unmarshalValueT [1, 0, 0, 0, 7, 0, 0, 0, 0, 0, 0, 0, 0] = .ok v)
      ∨ unmarshalValueT [1, 0, 0, 0, 7, 0, 0, 0, 0, 0, 0, 0, 0] = .error .ioError) :=
  ⟨by decide, unmarshal_total_no_panic [1, 0, 0, 0, 7, 0, 0, 0, 0, 0, 0, 0, 0] (by decide)⟩

end gostore
